import Mathlib

/-!
Shallow embedding of the chess board program (src/starter.cpp).

The program keeps an 8x8 grid of owning pointers to pieces; each piece caches
its own coordinate and generates its pseudo-legal destination squares by
consulting the global board.  We model the grid as a total function from a
pair of integer coordinates to an optional piece value, and each piece class
as a value of a single `Piece` structure carrying its colour, kind, cached
position and (for pawns) the `hasMoved` flag.  Every move-generation routine
is translated statement by statement from its C++ counterpart.
-/

/-- Position mirrors `struct Position` (two int coordinates, value equality). -/
structure Position where
  x : Int
  y : Int
deriving DecidableEq, Repr

/-- PieceKind enumerates the concrete subclasses of `IGamePiece`. -/
inductive PieceKind where
  | king
  | queen
  | rook
  | bishop
  | knight
  | pawn
deriving DecidableEq, Repr

/-- Piece models the data carried by an `IGamePiece` object: its team flag
`isWhite`, its dynamic class, its cached `position` field, and the pawn-only
`hasMoved` flag (false and unused for the other kinds). -/
structure Piece where
  isWhite : Bool
  kind : PieceKind
  position : Position
  hasMoved : Bool := false
deriving DecidableEq, Repr

/-- Board models the 2D grid `std::vector<std::vector<IGamePiece *>> board`:
a cell holds `some` piece or `none` (the null pointer), indexed as
`board[x][y]` exactly as the C++ accesses it. -/
def Board : Type := Int → Int → Option Piece

/-- getAtPosition mirrors `BoardManager::getAtPosition(row, col)`, the raw
grid lookup `board[row][col]`. -/
def BoardManager.getAtPosition (b : Board) (x y : Int) : Option Piece :=
  b x y

/-- inBounds is the bounds test `x >= 0 && x < 8 && y >= 0 && y < 8` that
every generator performs before touching the grid. -/
def inBounds (x y : Int) : Bool :=
  decide (0 ≤ x) && decide (x < 8) && decide (0 ≤ y) && decide (y < 8)

/-- kingMoves is the offset table `kingMoves[8][2]` of `King::getPotentialMoves`. -/
def kingMoves : List (Int × Int) :=
  [(1, 0), (-1, 0), (0, 1), (0, -1), (1, 1), (1, -1), (-1, 1), (-1, -1)]

/-- King.getPotentialMoves mirrors `King::getPotentialMoves`: apply each of
the eight unit offsets, keep the result when it is on the board and not
occupied by a piece of the same colour (`continue` otherwise). -/
def King.getPotentialMoves (p : Piece) (b : Board) : List Position :=
  kingMoves.filterMap fun mv =>
    let x := p.position.x + mv.1
    let y := p.position.y + mv.2
    if inBounds x y then
      match BoardManager.getAtPosition b x y with
      | some targetPiece =>
          if targetPiece.isWhite == p.isWhite then none else some ⟨x, y⟩
      | none => some ⟨x, y⟩
    else none

/-- knightMoves is the offset table `knightMoves[8][2]` of
`Knight::getPotentialMoves`. -/
def knightMoves : List (Int × Int) :=
  [(2, 1), (2, -1), (-2, 1), (-2, -1), (1, 2), (1, -2), (-1, 2), (-1, -2)]

/-- Knight.getPotentialMoves mirrors `Knight::getPotentialMoves`: apply each
L-shaped offset, keep the result when in bounds and the target cell is empty
or holds an opponent piece. -/
def Knight.getPotentialMoves (p : Piece) (b : Board) : List Position :=
  knightMoves.filterMap fun mv =>
    let nx := p.position.x + mv.1
    let ny := p.position.y + mv.2
    if inBounds nx ny then
      match BoardManager.getAtPosition b nx ny with
      | some pieceAtTarget =>
          if pieceAtTarget.isWhite != p.isWhite then some ⟨nx, ny⟩ else none
      | none => some ⟨nx, ny⟩
    else none

/-- Pawn.getPotentialMoves mirrors `Pawn::getPotentialMoves`: one square
forward when empty (only the y bound is checked, as in the source), two
squares forward when `hasMoved` is false and that destination is empty (the
intermediate square is not consulted by the source), and the two forward
diagonals when they hold an opponent piece.  The pushes happen in exactly
this order. -/
def Pawn.getPotentialMoves (p : Piece) (b : Board) : List Position :=
  let direction : Int := if p.isWhite then -1 else 1
  let forwardX := p.position.x
  let forwardY := p.position.y + direction
  let oneStep : List Position :=
    if 0 ≤ forwardY ∧ forwardY < 8 then
      match BoardManager.getAtPosition b forwardX forwardY with
      | none => [⟨forwardX, forwardY⟩]
      | some _ => []
    else []
  let twoStep : List Position :=
    if !p.hasMoved then
      let doubleForwardY := p.position.y + 2 * direction
      if 0 ≤ doubleForwardY ∧ doubleForwardY < 8 then
        match BoardManager.getAtPosition b forwardX doubleForwardY with
        | none => [⟨forwardX, doubleForwardY⟩]
        | some _ => []
      else []
    else []
  let captures : List Position :=
    [p.position.x + 1, p.position.x - 1].filterMap fun cx =>
      let cy := p.position.y + direction
      if 0 ≤ cx ∧ cx < 8 ∧ 0 ≤ cy ∧ cy < 8 then
        match BoardManager.getAtPosition b cx cy with
        | some targetPiece =>
            if targetPiece.isWhite != p.isWhite then some ⟨cx, cy⟩ else none
        | none => none
      else none
  oneStep ++ twoStep ++ captures

/-- Pawn.movePiece mirrors `Pawn::movePiece`, which sets `hasMoved = true`.
Note that no code path of the program ever calls this method. -/
def Pawn.movePiece (p : Piece) : Piece :=
  { p with hasMoved := true }

/-- rayFuel bounds the sliding `while (true)` walk.  Starting anywhere, at
most eight consecutive steps of a direction with a nonzero component of
magnitude one can stay inside the 8-wide board, so eight iterations produce
exactly the squares the unbounded C++ loop pushes. -/
def rayFuel : Nat := 8

/-- slideRay is the inner `while (true)` loop shared by rook, bishop and
queen: step by `(dx, dy)`, stop at the board edge, stop without pushing on an
allied occupant, push then stop on an enemy occupant, push and continue on an
empty square. -/
def slideRay (b : Board) (isWhite : Bool) (dx dy : Int) :
    Nat → Int → Int → List Position
  | 0, _, _ => []
  | fuel + 1, x0, y0 =>
    let x := x0 + dx
    let y := y0 + dy
    if inBounds x y then
      match BoardManager.getAtPosition b x y with
      | some targetPiece =>
          if targetPiece.isWhite == isWhite then [] else [⟨x, y⟩]
      | none => ⟨x, y⟩ :: slideRay b isWhite dx dy fuel x y
    else []

/-- rookDirections is the `directions[4][2]` table of `Rook::getPotentialMoves`. -/
def rookDirections : List (Int × Int) :=
  [(1, 0), (-1, 0), (0, 1), (0, -1)]

/-- bishopDirections is the `directions[4][2]` table of `Bishop::getPotentialMoves`. -/
def bishopDirections : List (Int × Int) :=
  [(1, 1), (-1, 1), (1, -1), (-1, -1)]

/-- queenDirections is the `directions[8][2]` table of `Queen::getPotentialMoves`. -/
def queenDirections : List (Int × Int) :=
  [(1, 0), (-1, 0), (0, 1), (0, -1), (1, 1), (-1, 1), (1, -1), (-1, -1)]

/-- Rook.getPotentialMoves mirrors `Rook::getPotentialMoves`: walk each of
the four orthogonal directions with the sliding loop. -/
def Rook.getPotentialMoves (p : Piece) (b : Board) : List Position :=
  rookDirections.flatMap fun d =>
    slideRay b p.isWhite d.1 d.2 rayFuel p.position.x p.position.y

/-- Bishop.getPotentialMoves mirrors `Bishop::getPotentialMoves`: walk each
of the four diagonal directions with the sliding loop. -/
def Bishop.getPotentialMoves (p : Piece) (b : Board) : List Position :=
  bishopDirections.flatMap fun d =>
    slideRay b p.isWhite d.1 d.2 rayFuel p.position.x p.position.y

/-- Queen.getPotentialMoves mirrors `Queen::getPotentialMoves`: walk all
eight directions with the sliding loop. -/
def Queen.getPotentialMoves (p : Piece) (b : Board) : List Position :=
  queenDirections.flatMap fun d =>
    slideRay b p.isWhite d.1 d.2 rayFuel p.position.x p.position.y

/-- getPotentialMoves is the virtual dispatch `piece->getPotentialMoves()`
over the closed set of piece subclasses. -/
def getPotentialMoves (p : Piece) (b : Board) : List Position :=
  match p.kind with
  | .king => King.getPotentialMoves p b
  | .queen => Queen.getPotentialMoves p b
  | .rook => Rook.getPotentialMoves p b
  | .bishop => Bishop.getPotentialMoves p b
  | .knight => Knight.getPotentialMoves p b
  | .pawn => Pawn.getPotentialMoves p b

/-- setCell is a single grid assignment `board[x][y] = v`. -/
def setCell (b : Board) (x y : Int) (v : Option Piece) : Board :=
  fun x' y' => if x' = x ∧ y' = y then v else b x' y'

/-- BoardManager.movePiece mirrors `BoardManager::movePiece`: scan the
piece's potential moves for the target (component-wise comparison); on
failure return false with the board untouched; on success delete any
occupant of the target cell, write the moving piece into the target cell,
null out the cell at the piece's cached old position, and return true.  The
piece value itself (in particular its cached `position`) is not modified. -/
def BoardManager.movePiece (b : Board) (piece : Piece) (target : Position) :
    Bool × Board :=
  let isValidMove :=
    (getPotentialMoves piece b).any fun mv =>
      mv.x == target.x && mv.y == target.y
  if isValidMove then
    let oldPos := piece.position
    let b1 := setCell b target.x target.y (some piece)
    let b2 := setCell b1 oldPos.x oldPos.y none
    (true, b2)
  else
    (false, b)

/-- BoardManager.renderBoard models the state effect of
`BoardManager::renderBoard`: besides printing, the render pass writes
`board[row][col]->position = Position(row, col)` into every occupied cell of
the 8x8 grid, re-synchronising each piece's cached coordinate with the cell
that owns it.  Cells outside the iterated grid are untouched. -/
def BoardManager.renderBoard (b : Board) : Board :=
  fun x y =>
    if inBounds x y then
      match b x y with
      | some piece => some { piece with position := ⟨x, y⟩ }
      | none => none
    else b x y

/-- ControllerState captures the mutable interaction state of `main`: the
board, the cursor, the currently selected piece (null when deselected) and
the cached candidate-move list for that piece. -/
structure ControllerState where
  board : Board
  cursor : Position
  selectedPiece : Option Piece
  moves : List Position

/-- processActivate is the `c == ' '` branch of the interaction loop: with a
piece selected, attempt `boardManager.movePiece(selectedPiece, cursor)` and
then unconditionally clear `selectedPiece` and `moves`; with no selection,
select the piece under the cursor (if any) and compute its potential moves. -/
def processActivate (s : ControllerState) : ControllerState :=
  match s.selectedPiece with
  | some piece =>
      { s with
        board := (BoardManager.movePiece s.board piece s.cursor).2
        selectedPiece := none
        moves := [] }
  | none =>
      match BoardManager.getAtPosition s.board s.cursor.x s.cursor.y with
      | none => s
      | some piece =>
          { s with
            selectedPiece := some piece
            moves := getPotentialMoves piece s.board }

/-- emptyBoard is the all-null grid. -/
def emptyBoard : Board := fun _ _ => none

/-- wknight is a white knight whose cached position is (1, 7). -/
def wknight : Piece := ⟨true, .knight, ⟨1, 7⟩, false⟩

/-- bpawn25 is a black pawn whose cached position is (2, 5). -/
def bpawn25 : Piece := ⟨false, .pawn, ⟨2, 5⟩, false⟩

/-- knightBoard holds the white knight at (1, 7) and a black pawn at (2, 5). -/
def knightBoard : Board :=
  setCell (setCell emptyBoard 1 7 (some wknight)) 2 5 (some bpawn25)

/-- wrook is a white rook whose cached position is (0, 0). -/
def wrook : Piece := ⟨true, .rook, ⟨0, 0⟩, false⟩

/-- bpawn20 is a black pawn whose cached position is (2, 0). -/
def bpawn20 : Piece := ⟨false, .pawn, ⟨2, 0⟩, false⟩

/-- rookBoard holds the white rook at (0, 0) and a black pawn at (2, 0);
the square (1, 0) between them is empty. -/
def rookBoard : Board :=
  setCell (setCell emptyBoard 0 0 (some wrook)) 2 0 (some bpawn20)

/-- wpawn06 is a white pawn at (0, 6) that has never moved. -/
def wpawn06 : Piece := ⟨true, .pawn, ⟨0, 6⟩, false⟩

/-- bpawn05 is a black pawn at (0, 5). -/
def bpawn05 : Piece := ⟨false, .pawn, ⟨0, 5⟩, false⟩

/-- blockedPawnBoard puts the white pawn at (0, 6) with a black pawn
directly in front of it at (0, 5); the square (0, 4) two ahead is empty. -/
def blockedPawnBoard : Board :=
  setCell (setCell emptyBoard 0 6 (some wpawn06)) 0 5 (some bpawn05)

/-- lonePawnBoard holds only the white pawn at (0, 6). -/
def lonePawnBoard : Board :=
  setCell emptyBoard 0 6 (some wpawn06)

/-- pawnAfterMove is the piece value stored at (0, 5) after the lone pawn
moves one square forward and the board is re-rendered: the cached position
is re-synchronised but `hasMoved` is still false, since nothing in the
program ever calls `Pawn::movePiece`. -/
def pawnAfterMove : Piece := ⟨true, .pawn, ⟨0, 5⟩, false⟩

/-- selectedState is an interaction state with the white knight selected and
the cursor on the black pawn at (2, 5). -/
def selectedState : ControllerState :=
  ⟨knightBoard, ⟨2, 5⟩, some wknight, Knight.getPotentialMoves wknight knightBoard⟩

/-- deSyncedPiece is a rook whose cached position (3, 3) disagrees with the
cell (0, 0) that owns it on `deSyncedBoard`. -/
def deSyncedPiece : Piece := ⟨true, .rook, ⟨3, 3⟩, false⟩

/-- deSyncedBoard owns `deSyncedPiece` at cell (0, 0). -/
def deSyncedBoard : Board :=
  setCell emptyBoard 0 0 (some deSyncedPiece)

/-- specStepMoves is stated from the spec's words for the stepping pieces:
the fixed relative-offset table applied to the piece's current position,
restricted to on-board coordinates, with squares occupied by same-colour
pieces removed. -/
def specStepMoves (p : Piece) (b : Board) (offsets : List (Int × Int)) :
    List Position :=
  (offsets.map fun mv =>
      (⟨p.position.x + mv.1, p.position.y + mv.2⟩ : Position)).filter
    fun q =>
      inBounds q.x q.y &&
        match b q.x q.y with
        | some t => !(t.isWhite == p.isWhite)
        | none => true

/-- slideDirections names the direction table of each sliding kind (empty
for the non-sliding kinds). -/
def slideDirections : PieceKind → List (Int × Int)
  | .rook => rookDirections
  | .bishop => bishopDirections
  | .queen => queenDirections
  | _ => []

/-! Basic bridging lemmas. -/

theorem inBounds_iff {x y : Int} :
    inBounds x y = true ↔ 0 ≤ x ∧ x < 8 ∧ 0 ≤ y ∧ y < 8 := by
  simp [inBounds, and_assoc]

theorem position_eq_iff {q : Position} {a c : Int} :
    q = ⟨a, c⟩ ↔ q.x = a ∧ q.y = c := by
  cases q; simp

theorem isValid_any_iff {l : List Position} {t : Position} :
    (l.any fun mv => mv.x == t.x && mv.y == t.y) = true ↔ t ∈ l := by
  rw [List.any_eq_true]
  constructor
  · rintro ⟨mv, hmv, h⟩
    simp only [Bool.and_eq_true, beq_iff_eq] at h
    obtain ⟨h1, h2⟩ := h
    cases mv; cases t; simp_all
  · intro h
    exact ⟨t, h, by simp⟩

theorem movePiece_of_valid {b : Board} {p : Piece} {t : Position}
    (h : t ∈ getPotentialMoves p b) :
    BoardManager.movePiece b p t =
      (true, setCell (setCell b t.x t.y (some p)) p.position.x p.position.y none) := by
  unfold BoardManager.movePiece
  rw [if_pos (isValid_any_iff.2 h)]

theorem movePiece_of_invalid {b : Board} {p : Piece} {t : Position}
    (h : t ∉ getPotentialMoves p b) :
    BoardManager.movePiece b p t = (false, b) := by
  unfold BoardManager.movePiece
  rw [if_neg]
  intro hc
  exact h (isValid_any_iff.1 hc)

theorem movePiece_fst_iff (b : Board) (p : Piece) (t : Position) :
    (BoardManager.movePiece b p t).1 = true ↔ t ∈ getPotentialMoves p b := by
  by_cases h : t ∈ getPotentialMoves p b
  · rw [movePiece_of_valid h]; simpa using h
  · rw [movePiece_of_invalid h]; simpa using h

theorem setCell_same (b : Board) (x y : Int) (v : Option Piece) :
    setCell b x y v x y = v := by
  simp [setCell]

theorem setCell_other (b : Board) (x y : Int) (v : Option Piece) {x' y' : Int}
    (h : ¬(x' = x ∧ y' = y)) :
    setCell b x y v x' y' = b x' y' := by
  simp [setCell, h]

/-! Membership characterisations for the stepping pieces. -/

theorem mem_king_moves {p : Piece} {b : Board} {q : Position} :
    q ∈ King.getPotentialMoves p b ↔
      ∃ mv ∈ kingMoves,
        q = ⟨p.position.x + mv.1, p.position.y + mv.2⟩ ∧
        inBounds q.x q.y = true ∧
        ∀ t, b q.x q.y = some t → t.isWhite ≠ p.isWhite := by
  rw [King.getPotentialMoves, List.mem_filterMap]
  constructor
  · rintro ⟨mv, hmv, hbody⟩
    refine ⟨mv, hmv, ?_⟩
    simp only [BoardManager.getAtPosition] at hbody
    by_cases hib : inBounds (p.position.x + mv.1) (p.position.y + mv.2) = true
    · rcases hocc : b (p.position.x + mv.1) (p.position.y + mv.2) with _ | t
      · rw [hocc] at hbody
        simp only [hib, if_true, Option.some.injEq] at hbody
        subst hbody
        exact ⟨rfl, hib, fun t ht => by rw [hocc] at ht; cases ht⟩
      · rw [hocc] at hbody
        by_cases hcol : t.isWhite = p.isWhite
        · simp [hib, hcol] at hbody
        · simp only [hib, if_true, hcol, beq_eq_false_iff_ne, ne_eq,
            not_false_eq_true, if_false, beq_iff_eq, if_neg hcol,
            Option.some.injEq] at hbody
          subst hbody
          refine ⟨rfl, hib, fun t' ht' => ?_⟩
          rw [hocc] at ht'
          cases ht'
          exact hcol
    · simp [hib] at hbody
  · rintro ⟨mv, hmv, rfl, hib, hocc⟩
    refine ⟨mv, hmv, ?_⟩
    simp only [BoardManager.getAtPosition]
    rcases h : b (p.position.x + mv.1) (p.position.y + mv.2) with _ | t
    · simp [hib, h]
    · simp [hib, h, hocc t h]

theorem pawn_moves_sound {p : Piece} {b : Board} {q : Position}
    (h : q ∈ Pawn.getPotentialMoves p b) :
    0 ≤ q.y ∧ q.y < 8 ∧
    (q.y - p.position.y = (if p.isWhite then (-1 : Int) else 1) ∨
      q.y - p.position.y = 2 * (if p.isWhite then (-1 : Int) else 1)) ∧
    ((q.x = p.position.x ∧ b q.x q.y = none) ∨
      ((q.x = p.position.x + 1 ∨ q.x = p.position.x - 1) ∧ 0 ≤ q.x ∧ q.x < 8 ∧
        ∃ t, b q.x q.y = some t ∧ t.isWhite ≠ p.isWhite)) := by
  rw [Pawn.getPotentialMoves] at h
  simp only [List.mem_append, BoardManager.getAtPosition] at h
  rcases h with (h | h) | h
  · by_cases hb :
        0 ≤ p.position.y + (if p.isWhite then (-1 : Int) else 1) ∧
          p.position.y + (if p.isWhite then (-1 : Int) else 1) < 8
    · rw [if_pos hb] at h
      rcases hocc : b p.position.x
          (p.position.y + (if p.isWhite then (-1 : Int) else 1)) with _ | t
      · rw [hocc] at h
        simp only [List.mem_singleton] at h
        subst h
        exact ⟨hb.1, hb.2, Or.inl (by ring), Or.inl ⟨rfl, hocc⟩⟩
      · rw [hocc] at h
        cases h
    · rw [if_neg hb] at h
      cases h
  · by_cases hm : p.hasMoved
    · simp [hm] at h
    · rw [Bool.not_eq_true] at hm
      simp only [hm, Bool.not_false, if_true] at h
      by_cases hb :
          0 ≤ p.position.y + 2 * (if p.isWhite then (-1 : Int) else 1) ∧
            p.position.y + 2 * (if p.isWhite then (-1 : Int) else 1) < 8
      · rw [if_pos hb] at h
        rcases hocc : b p.position.x
            (p.position.y + 2 * (if p.isWhite then (-1 : Int) else 1)) with _ | t
        · rw [hocc] at h
          simp only [List.mem_singleton] at h
          subst h
          exact ⟨hb.1, hb.2, Or.inr (by ring), Or.inl ⟨rfl, hocc⟩⟩
        · rw [hocc] at h
          cases h
      · rw [if_neg hb] at h
        cases h
  · rw [List.mem_filterMap] at h
    obtain ⟨cx, hcx, hbody⟩ := h
    by_cases hb :
        0 ≤ cx ∧ cx < 8 ∧
          0 ≤ p.position.y + (if p.isWhite then (-1 : Int) else 1) ∧
          p.position.y + (if p.isWhite then (-1 : Int) else 1) < 8
    · rw [if_pos hb] at hbody
      rcases hocc : b cx
          (p.position.y + (if p.isWhite then (-1 : Int) else 1)) with _ | t
      · rw [hocc] at hbody
        cases hbody
      · rw [hocc] at hbody
        by_cases hcol : t.isWhite = p.isWhite
        · simp [hcol] at hbody
        · simp only [bne_iff_ne, ne_eq, hcol, not_false_eq_true, if_true,
            Option.some.injEq] at hbody
          subst hbody
          simp only [List.mem_cons, List.mem_singleton] at hcx
          exact ⟨hb.2.2.1, hb.2.2.2, Or.inl (by ring),
            Or.inr ⟨by tauto, hb.1, hb.2.1, t, hocc, hcol⟩⟩
    · rw [if_neg hb] at hbody
      cases hbody

theorem cast_succ_mul (x dx : Int) (n : Nat) :
    x + ((n + 1 : Nat) : Int) * dx = (x + dx) + (n : Int) * dx := by
  push_cast
  ring

theorem mem_slideRay (b : Board) (w : Bool) (dx dy : Int) (fuel : Nat) :
    ∀ (x y : Int) (q : Position),
      q ∈ slideRay b w dx dy fuel x y ↔
      ∃ i : Nat, 1 ≤ i ∧ i ≤ fuel ∧
        q = ⟨x + (i : Int) * dx, y + (i : Int) * dy⟩ ∧
        (∀ j : Nat, 1 ≤ j → j < i →
          inBounds (x + (j : Int) * dx) (y + (j : Int) * dy) = true ∧
          b (x + (j : Int) * dx) (y + (j : Int) * dy) = none) ∧
        inBounds (x + (i : Int) * dx) (y + (i : Int) * dy) = true ∧
        (∀ t, b (x + (i : Int) * dx) (y + (i : Int) * dy) = some t →
          t.isWhite ≠ w) := by
  induction fuel with
  | zero =>
    intro x y q
    constructor
    · intro h
      simp [slideRay] at h
    · rintro ⟨i, hi1, hi0, _⟩
      omega
  | succ fuel ih =>
    intro x y q
    simp only [slideRay, BoardManager.getAtPosition]
    by_cases hib : inBounds (x + dx) (y + dy) = true
    · rcases hocc : b (x + dx) (y + dy) with _ | t
      · simp only [hib, if_true, hocc, List.mem_cons, ih]
        constructor
        · rintro (rfl | ⟨i, hi1, hif, hq, hpre, hbnd, hen⟩)
          · refine ⟨1, le_refl 1, by omega, by simp, ?_, by simpa using hib, ?_⟩
            · intro j hj1 hj2
              omega
            · intro t ht
              simp only [Nat.cast_one, one_mul] at ht
              rw [hocc] at ht
              cases ht
          · refine ⟨i + 1, by omega, by omega, ?_, ?_, ?_, ?_⟩
            · simpa only [cast_succ_mul] using hq
            · intro j hj1 hji
              obtain ⟨j', rfl⟩ : ∃ j', j = j' + 1 := ⟨j - 1, by omega⟩
              rcases Nat.eq_zero_or_pos j' with rfl | hj'
              · simpa using ⟨hib, hocc⟩
              · simpa only [cast_succ_mul] using hpre j' (by omega) (by omega)
            · simpa only [cast_succ_mul] using hbnd
            · simpa only [cast_succ_mul] using hen
        · rintro ⟨i, hi1, hif, hq, hpre, hbnd, hen⟩
          obtain ⟨i', rfl⟩ : ∃ i', i = i' + 1 := ⟨i - 1, by omega⟩
          rcases Nat.eq_zero_or_pos i' with rfl | hi'
          · left
            simpa using hq
          · right
            refine ⟨i', hi', by omega, ?_, ?_, ?_, ?_⟩
            · simpa only [cast_succ_mul] using hq
            · intro j hj1 hji
              simpa only [cast_succ_mul] using hpre (j + 1) (by omega) (by omega)
            · simpa only [cast_succ_mul] using hbnd
            · simpa only [cast_succ_mul] using hen
      · by_cases hcol : t.isWhite = w
        · simp only [hib, if_true, hocc, hcol, beq_self_eq_true, if_true,
            List.not_mem_nil, false_iff, not_exists]
          intro i
          rintro ⟨hi1, hif, hq, hpre, hbnd, hen⟩
          rcases Nat.lt_or_ge i 2 with hi2 | hi2
          · have hone : i = 1 := by omega
            subst hone
            exact hen t (by simpa only [Nat.cast_one, one_mul] using hocc) hcol
          · have hpre1 := (hpre 1 (by omega) (by omega)).2
            simp only [Nat.cast_one, one_mul] at hpre1
            rw [hocc] at hpre1
            cases hpre1
        · simp only [hib, if_true, hocc, beq_iff_eq, hcol, if_false,
            List.mem_singleton]
          constructor
          · rintro rfl
            refine ⟨1, le_refl 1, by omega, by simp, ?_, by simpa using hib, ?_⟩
            · intro j hj1 hj2
              omega
            · intro t' ht'
              simp only [Nat.cast_one, one_mul] at ht'
              rw [hocc] at ht'
              cases ht'
              exact hcol
          · rintro ⟨i, hi1, hif, hq, hpre, hbnd, hen⟩
            rcases Nat.lt_or_ge i 2 with hi2 | hi2
            · have hone : i = 1 := by omega
              subst hone
              simpa using hq
            · have hpre1 := (hpre 1 (by omega) (by omega)).2
              simp only [Nat.cast_one, one_mul] at hpre1
              rw [hocc] at hpre1
              cases hpre1
    · rw [if_neg hib]
      simp only [List.not_mem_nil, false_iff, not_exists]
      intro i
      rintro ⟨hi1, hif, hq, hpre, hbnd, hen⟩
      rcases Nat.lt_or_ge i 2 with hi2 | hi2
      · have hone : i = 1 := by omega
        subst hone
        simp only [Nat.cast_one, one_mul] at hbnd
        exact hib hbnd
      · have hpre1 := (hpre 1 (by omega) (by omega)).1
        simp only [Nat.cast_one, one_mul] at hpre1
        exact hib hpre1

theorem mem_knight_moves {p : Piece} {b : Board} {q : Position} :
    q ∈ Knight.getPotentialMoves p b ↔
      ∃ mv ∈ knightMoves,
        q = ⟨p.position.x + mv.1, p.position.y + mv.2⟩ ∧
        inBounds q.x q.y = true ∧
        ∀ t, b q.x q.y = some t → t.isWhite ≠ p.isWhite := by
  rw [Knight.getPotentialMoves, List.mem_filterMap]
  constructor
  · rintro ⟨mv, hmv, hbody⟩
    refine ⟨mv, hmv, ?_⟩
    simp only [BoardManager.getAtPosition] at hbody
    by_cases hib : inBounds (p.position.x + mv.1) (p.position.y + mv.2) = true
    · rcases hocc : b (p.position.x + mv.1) (p.position.y + mv.2) with _ | t
      · rw [hocc] at hbody
        simp only [hib, if_true, Option.some.injEq] at hbody
        subst hbody
        exact ⟨rfl, hib, fun t ht => by rw [hocc] at ht; cases ht⟩
      · rw [hocc] at hbody
        by_cases hcol : t.isWhite = p.isWhite
        · simp [hib, hcol] at hbody
        · simp only [hib, if_true, bne_iff_ne, ne_eq, hcol,
            not_false_eq_true, if_true, Option.some.injEq] at hbody
          subst hbody
          refine ⟨rfl, hib, fun t' ht' => ?_⟩
          rw [hocc] at ht'
          cases ht'
          exact hcol
    · simp [hib] at hbody
  · rintro ⟨mv, hmv, rfl, hib, hocc⟩
    refine ⟨mv, hmv, ?_⟩
    simp only [BoardManager.getAtPosition]
    rcases h : b (p.position.x + mv.1) (p.position.y + mv.2) with _ | t
    · simp [hib, h]
    · simp [hib, h, hocc t h]

theorem slideDirs_subset (k : PieceKind) :
    ∀ d ∈ slideDirections k, d ∈ queenDirections := by
  cases k <;> decide

theorem dir_point_inj {d e : Int × Int} (hd : d ∈ queenDirections)
    (he : e ∈ queenDirections) {i j : Nat} (hi : 1 ≤ i) (hj : 1 ≤ j)
    (hx : (i : Int) * d.1 = (j : Int) * e.1)
    (hy : (i : Int) * d.2 = (j : Int) * e.2) :
    d = e ∧ i = j := by
  simp only [queenDirections, List.mem_cons, List.not_mem_nil, or_false] at hd he
  rcases hd with rfl | rfl | rfl | rfl | rfl | rfl | rfl | rfl <;>
    rcases he with rfl | rfl | rfl | rfl | rfl | rfl | rfl | rfl <;>
      simp only [mul_one, mul_zero, mul_neg_one, Prod.mk.injEq] at hx hy ⊢ <;>
        first
          | omega
          | exact ⟨trivial, by omega⟩

theorem sliding_getPotentialMoves (p : Piece) (b : Board)
    (hk : p.kind = .rook ∨ p.kind = .bishop ∨ p.kind = .queen) :
    getPotentialMoves p b =
      (slideDirections p.kind).flatMap fun d =>
        slideRay b p.isWhite d.1 d.2 rayFuel p.position.x p.position.y := by
  rcases hk with hk | hk | hk <;>
    simp [getPotentialMoves, hk, Rook.getPotentialMoves,
      Bishop.getPotentialMoves, Queen.getPotentialMoves, slideDirections]

theorem mem_sliding_moves {p : Piece} {b : Board} {q : Position}
    (hk : p.kind = .rook ∨ p.kind = .bishop ∨ p.kind = .queen) :
    q ∈ getPotentialMoves p b ↔
      ∃ d ∈ slideDirections p.kind, ∃ i : Nat, 1 ≤ i ∧ i ≤ rayFuel ∧
        q = ⟨p.position.x + (i : Int) * d.1, p.position.y + (i : Int) * d.2⟩ ∧
        (∀ j : Nat, 1 ≤ j → j < i →
          inBounds (p.position.x + (j : Int) * d.1)
            (p.position.y + (j : Int) * d.2) = true ∧
          b (p.position.x + (j : Int) * d.1)
            (p.position.y + (j : Int) * d.2) = none) ∧
        inBounds (p.position.x + (i : Int) * d.1)
          (p.position.y + (i : Int) * d.2) = true ∧
        (∀ t, b (p.position.x + (i : Int) * d.1)
            (p.position.y + (i : Int) * d.2) = some t →
          t.isWhite ≠ p.isWhite) := by
  rw [sliding_getPotentialMoves p b hk, List.mem_flatMap]
  constructor
  · rintro ⟨d, hd, hq⟩
    rw [mem_slideRay] at hq
    obtain ⟨i, hi⟩ := hq
    exact ⟨d, hd, i, hi⟩
  · rintro ⟨d, hd, i, hi⟩
    refine ⟨d, hd, ?_⟩
    rw [mem_slideRay]
    exact ⟨i, hi⟩

theorem mem_specStepMoves {p : Piece} {b : Board} {offsets : List (Int × Int)}
    {q : Position} :
    q ∈ specStepMoves p b offsets ↔
      ∃ mv ∈ offsets, q = ⟨p.position.x + mv.1, p.position.y + mv.2⟩ ∧
        inBounds q.x q.y = true ∧
        ∀ t, b q.x q.y = some t → t.isWhite ≠ p.isWhite := by
  rw [specStepMoves, List.mem_filter, List.mem_map]
  constructor
  · rintro ⟨⟨mv, hmv, rfl⟩, hcond⟩
    rw [Bool.and_eq_true] at hcond
    refine ⟨mv, hmv, rfl, hcond.1, ?_⟩
    intro t ht
    have hc := hcond.2
    rw [ht] at hc
    simpa using hc
  · rintro ⟨mv, hmv, rfl, hib, hocc⟩
    refine ⟨⟨mv, hmv, rfl⟩, ?_⟩
    rw [Bool.and_eq_true]
    refine ⟨hib, ?_⟩
    rcases h : b (Position.mk (p.position.x + mv.1) (p.position.y + mv.2)).x
        (Position.mk (p.position.x + mv.1) (p.position.y + mv.2)).y with _ | t
    · rfl
    · simpa using hocc t h

theorem pos_not_mem_moves (p : Piece) (b : Board) :
    p.position ∉ getPotentialMoves p b := by
  intro h
  rcases hk : p.kind
  case king =>
    simp only [getPotentialMoves, hk] at h
    rw [mem_king_moves] at h
    obtain ⟨mv, hmv, heq, -, -⟩ := h
    rw [position_eq_iff] at heq
    simp only [kingMoves, List.mem_cons, List.not_mem_nil, or_false] at hmv
    rcases hmv with rfl | rfl | rfl | rfl | rfl | rfl | rfl | rfl <;>
      · obtain ⟨hx, hy⟩ := heq
        simp only [Prod.mk.injEq] at hx hy
        omega
  case knight =>
    simp only [getPotentialMoves, hk] at h
    rw [mem_knight_moves] at h
    obtain ⟨mv, hmv, heq, -, -⟩ := h
    rw [position_eq_iff] at heq
    simp only [knightMoves, List.mem_cons, List.not_mem_nil, or_false] at hmv
    rcases hmv with rfl | rfl | rfl | rfl | rfl | rfl | rfl | rfl <;>
      · obtain ⟨hx, hy⟩ := heq
        simp only [Prod.mk.injEq] at hx hy
        omega
  case pawn =>
    simp only [getPotentialMoves, hk] at h
    have hs := pawn_moves_sound h
    obtain ⟨-, -, hdy, -⟩ := hs
    cases hw : p.isWhite <;> rw [hw] at hdy <;> simp at hdy
  case rook =>
    rw [mem_sliding_moves (by simp [hk])] at h
    obtain ⟨d, hd, i, hi1, -, heq, -⟩ := h
    rw [position_eq_iff] at heq
    have hdq := slideDirs_subset p.kind d hd
    simp only [queenDirections, List.mem_cons, List.not_mem_nil, or_false] at hdq
    rcases hdq with rfl | rfl | rfl | rfl | rfl | rfl | rfl | rfl <;>
      · obtain ⟨hx, hy⟩ := heq
        simp only [mul_one, mul_zero, mul_neg_one] at hx hy
        omega
  case bishop =>
    rw [mem_sliding_moves (by simp [hk])] at h
    obtain ⟨d, hd, i, hi1, -, heq, -⟩ := h
    rw [position_eq_iff] at heq
    have hdq := slideDirs_subset p.kind d hd
    simp only [queenDirections, List.mem_cons, List.not_mem_nil, or_false] at hdq
    rcases hdq with rfl | rfl | rfl | rfl | rfl | rfl | rfl | rfl <;>
      · obtain ⟨hx, hy⟩ := heq
        simp only [mul_one, mul_zero, mul_neg_one] at hx hy
        omega
  case queen =>
    rw [mem_sliding_moves (by simp [hk])] at h
    obtain ⟨d, hd, i, hi1, -, heq, -⟩ := h
    rw [position_eq_iff] at heq
    have hdq := slideDirs_subset p.kind d hd
    simp only [queenDirections, List.mem_cons, List.not_mem_nil, or_false] at hdq
    rcases hdq with rfl | rfl | rfl | rfl | rfl | rfl | rfl | rfl <;>
      · obtain ⟨hx, hy⟩ := heq
        simp only [mul_one, mul_zero, mul_neg_one] at hx hy
        omega

theorem movePiece_success_state {b : Board} {p : Piece} {t : Position}
    (h : (BoardManager.movePiece b p t).1 = true) :
    t ≠ p.position ∧
    (BoardManager.movePiece b p t).2 t.x t.y = some p ∧
    (BoardManager.movePiece b p t).2 p.position.x p.position.y = none ∧
    ∀ x y, ¬(x = t.x ∧ y = t.y) → ¬(x = p.position.x ∧ y = p.position.y) →
      (BoardManager.movePiece b p t).2 x y = b x y := by
  have hm := (movePiece_fst_iff b p t).1 h
  have hne : t ≠ p.position := by
    intro he
    rw [he] at hm
    exact pos_not_mem_moves p b hm
  have hb2 : (BoardManager.movePiece b p t).2 =
      setCell (setCell b t.x t.y (some p)) p.position.x p.position.y none := by
    rw [movePiece_of_valid hm]
  rw [hb2]
  refine ⟨hne, ?_, ?_, ?_⟩
  · rw [setCell_other, setCell_same]
    intro hc
    exact hne (position_eq_iff.2 hc)
  · exact setCell_same _ _ _ _
  · intro x y hxy hpos
    rw [setCell_other _ _ _ _ hpos, setCell_other _ _ _ _ hxy]

/-! Claim theorems. -/

/-- C1: for every piece and board state, BoardManager.movePiece succeeds
exactly when the target is a member of the piece's generated move set
(getPotentialMoves against the current board), and whenever it fails the
board occupancy grid is returned identical to its pre-call state. -/
theorem claim_C1_movePiece_success_iff_and_failure_unchanged
    (b : Board) (p : Piece) (t : Position) :
    ((BoardManager.movePiece b p t).1 = true ↔ t ∈ getPotentialMoves p b) ∧
    ((BoardManager.movePiece b p t).1 = false →
      (BoardManager.movePiece b p t).2 = b) := by
  refine ⟨movePiece_fst_iff b p t, ?_⟩
  intro hf
  by_cases hm : t ∈ getPotentialMoves p b
  · rw [movePiece_of_valid hm] at hf
    simp at hf
  · rw [movePiece_of_invalid hm]

/-- C1 witness: moving the knight at (1, 7) to the non-knight square (1, 5)
fails and leaves the board unchanged. -/
theorem claim_C1_witness :
    (BoardManager.movePiece knightBoard wknight ⟨1, 5⟩).1 = false ∧
    (BoardManager.movePiece knightBoard wknight ⟨1, 5⟩).2 = knightBoard := by
  refine ⟨by decide, ?_⟩
  exact (claim_C1_movePiece_success_iff_and_failure_unchanged
    knightBoard wknight ⟨1, 5⟩).2 (by decide)

/-- C2: every generated move of a piece whose cached position lies on the
8x8 board is itself on the board and does not land on a piece of the
mover's own colour. -/
theorem claim_C2_moves_in_bounds_not_ally (p : Piece) (b : Board)
    (hp : inBounds p.position.x p.position.y = true) :
    ∀ q ∈ getPotentialMoves p b, inBounds q.x q.y = true ∧
      ∀ t, BoardManager.getAtPosition b q.x q.y = some t →
        t.isWhite ≠ p.isWhite := by
  intro q hq
  rcases hk : p.kind
  case king =>
    simp only [getPotentialMoves, hk] at hq
    rw [mem_king_moves] at hq
    obtain ⟨mv, -, -, hib, hocc⟩ := hq
    exact ⟨hib, hocc⟩
  case knight =>
    simp only [getPotentialMoves, hk] at hq
    rw [mem_knight_moves] at hq
    obtain ⟨mv, -, -, hib, hocc⟩ := hq
    exact ⟨hib, hocc⟩
  case pawn =>
    simp only [getPotentialMoves, hk] at hq
    obtain ⟨hy0, hy8, -, hcase⟩ := pawn_moves_sound hq
    rw [inBounds_iff] at hp
    rcases hcase with ⟨hqx, hnone⟩ | ⟨-, hx0, hx8, t, hocc, hcol⟩
    · refine ⟨by rw [inBounds_iff]; omega, ?_⟩
      intro t ht
      simp only [BoardManager.getAtPosition] at ht
      rw [hnone] at ht
      cases ht
    · refine ⟨by rw [inBounds_iff]; omega, ?_⟩
      intro t' ht'
      simp only [BoardManager.getAtPosition] at ht'
      rw [hocc] at ht'
      cases ht'
      exact hcol
  case rook =>
    rw [mem_sliding_moves (by simp [hk])] at hq
    obtain ⟨d, hd, i, -, -, heq, -, hib, hocc⟩ := hq
    subst heq
    exact ⟨hib, hocc⟩
  case bishop =>
    rw [mem_sliding_moves (by simp [hk])] at hq
    obtain ⟨d, hd, i, -, -, heq, -, hib, hocc⟩ := hq
    subst heq
    exact ⟨hib, hocc⟩
  case queen =>
    rw [mem_sliding_moves (by simp [hk])] at hq
    obtain ⟨d, hd, i, -, -, heq, -, hib, hocc⟩ := hq
    subst heq
    exact ⟨hib, hocc⟩

/-- C2 witness: the knight at (1, 7) on the two-piece board. -/
theorem claim_C2_witness :
    inBounds wknight.position.x wknight.position.y = true ∧
    ∀ q ∈ getPotentialMoves wknight knightBoard, inBounds q.x q.y = true ∧
      ∀ t, BoardManager.getAtPosition knightBoard q.x q.y = some t →
        t.isWhite ≠ wknight.isWhite :=
  ⟨by decide, claim_C2_moves_in_bounds_not_ally wknight knightBoard (by decide)⟩

/-- C3: along any direction ray of a sliding piece, if the first occupied
ray square sits at index k (indices 1..k-1 being on-board and empty), then
no square at an index beyond k is generated in the move set, and the index-k
square itself is generated iff its occupant is an enemy piece. -/
theorem claim_C3_sliding_first_blocker (p : Piece) (b : Board)
    (d : Int × Int) (k : Nat) (t : Piece)
    (hkind : p.kind = PieceKind.rook ∨ p.kind = PieceKind.bishop ∨
      p.kind = PieceKind.queen)
    (hd : d ∈ slideDirections p.kind)
    (hk1 : 1 ≤ k)
    (hb : inBounds (p.position.x + (k : Int) * d.1)
      (p.position.y + (k : Int) * d.2) = true)
    (hocc : b (p.position.x + (k : Int) * d.1)
      (p.position.y + (k : Int) * d.2) = some t)
    (hpre : ∀ j : Nat, j < k → 1 ≤ j →
      inBounds (p.position.x + (j : Int) * d.1)
        (p.position.y + (j : Int) * d.2) = true ∧
      b (p.position.x + (j : Int) * d.1)
        (p.position.y + (j : Int) * d.2) = none) :
    (∀ m : Nat, k < m →
      (⟨p.position.x + (m : Int) * d.1, p.position.y + (m : Int) * d.2⟩ :
        Position) ∉ getPotentialMoves p b) ∧
    ((⟨p.position.x + (k : Int) * d.1, p.position.y + (k : Int) * d.2⟩ :
        Position) ∈ getPotentialMoves p b ↔ t.isWhite ≠ p.isWhite) := by
  have hdq := slideDirs_subset p.kind d hd
  constructor
  · intro m hm hmem
    rw [mem_sliding_moves hkind] at hmem
    obtain ⟨e, he, i, hi1, -, heq, hpre2, -, -⟩ := hmem
    simp only [Position.mk.injEq] at heq
    have hx' : (m : Int) * d.1 = (i : Int) * e.1 := add_left_cancel heq.1
    have hy' : (m : Int) * d.2 = (i : Int) * e.2 := add_left_cancel heq.2
    obtain ⟨hde, hmi⟩ := dir_point_inj hdq (slideDirs_subset p.kind e he)
      (by omega) hi1 hx' hy'
    subst hde
    subst hmi
    have hkk := hpre2 k hk1 hm
    rw [hkk.2] at hocc
    cases hocc
  · constructor
    · intro hmem
      rw [mem_sliding_moves hkind] at hmem
      obtain ⟨e, he, i, hi1, -, heq, -, -, hocc2⟩ := hmem
      simp only [Position.mk.injEq] at heq
      have hx' : (k : Int) * d.1 = (i : Int) * e.1 := add_left_cancel heq.1
      have hy' : (k : Int) * d.2 = (i : Int) * e.2 := add_left_cancel heq.2
      obtain ⟨hde, hki⟩ := dir_point_inj hdq (slideDirs_subset p.kind e he)
        hk1 hi1 hx' hy'
      subst hde
      subst hki
      exact hocc2 t hocc
    · intro hcol
      rw [mem_sliding_moves hkind]
      have hk8 : k ≤ rayFuel := by
        rcases Nat.lt_or_ge k 2 with h2 | h2
        · show k ≤ 8
          omega
        · have h1 := (hpre 1 (by omega) (by omega)).1
          rw [inBounds_iff] at h1 hb
          simp only [queenDirections, List.mem_cons, List.not_mem_nil,
            or_false] at hdq
          show k ≤ 8
          rcases hdq with rfl | rfl | rfl | rfl | rfl | rfl | rfl | rfl <;>
            · simp only [mul_one, mul_zero, mul_neg_one, add_zero,
                Nat.cast_one] at h1 hb
              omega
      refine ⟨d, hd, k, hk1, hk8, rfl, ?_, hb, ?_⟩
      · intro j hj1 hjk
        exact hpre j hjk hj1
      · intro t' ht'
        rw [hocc] at ht'
        cases ht'
        exact hcol

/-- C3 witness: the rook at (0, 0) with a black pawn two squares to the
right at (2, 0): the blocker is at ray index 2 of direction (1, 0), the
intermediate square is empty, and the capture square is generated since the
occupant is an enemy. -/
theorem claim_C3_witness :
    (rookBoard (wrook.position.x + (2 : Nat) * (1 : Int))
        (wrook.position.y + (2 : Nat) * (0 : Int)) = some bpawn20) ∧
    ((⟨wrook.position.x + ((2 : Nat) : Int) * 1,
        wrook.position.y + ((2 : Nat) : Int) * 0⟩ : Position) ∈
      getPotentialMoves wrook rookBoard ↔ bpawn20.isWhite ≠ wrook.isWhite) :=
  ⟨by decide,
   (claim_C3_sliding_first_blocker wrook rookBoard (1, 0) 2 bpawn20
      (Or.inl rfl) (by decide) (by decide) (by decide) (by decide)
      (by decide)).2⟩

/-- C4 failing input: the white pawn at (0, 6) that has never moved, with
the intermediate square (0, 5) occupied by a black pawn and the destination
(0, 4) empty, still receives the two-squares-ahead destination (0, 4) in
its generated move set: the generator checks only the destination square
and never consults the intermediate square, contradicting the claim. -/
theorem claim_C4_double_advance_ignores_intermediate :
    wpawn06.hasMoved = false ∧
    blockedPawnBoard 0 5 = some bpawn05 ∧
    blockedPawnBoard 0 4 = none ∧
    (⟨0, 4⟩ : Position) ∈ getPotentialMoves wpawn06 blockedPawnBoard := by
  decide

/-- C5 failing input: the lone white pawn at (0, 6) successfully moves one
square forward through the gameplay path, the render pass re-homes it to
(0, 5), yet its `hasMoved` flag is still false (nothing ever calls
`Pawn::movePiece`), so the two-square advance to (0, 3) is still offered in
its next generated move set, contradicting the claim. -/
theorem claim_C5_double_advance_still_offered_after_move :
    (BoardManager.movePiece lonePawnBoard wpawn06 ⟨0, 5⟩).1 = true ∧
    BoardManager.renderBoard
        (BoardManager.movePiece lonePawnBoard wpawn06 ⟨0, 5⟩).2 0 5 =
      some pawnAfterMove ∧
    pawnAfterMove.hasMoved = false ∧
    (⟨0, 3⟩ : Position) ∈ getPotentialMoves pawnAfterMove
      (BoardManager.renderBoard
        (BoardManager.movePiece lonePawnBoard wpawn06 ⟨0, 5⟩).2) := by
  decide

/-- C6 counterexample: the knight at (1, 7) successfully captures on
(2, 5), but the piece value stored at the target cell still carries the
pre-move cached coordinate (1, 7), not (2, 5): movePiece never updates the
cached coordinate, so the claim's last conjunct is false. -/
theorem claim_C6_counterexample :
    (BoardManager.movePiece knightBoard wknight ⟨2, 5⟩).1 = true ∧
    (BoardManager.movePiece knightBoard wknight ⟨2, 5⟩).2 2 5 = some wknight ∧
    wknight.position ≠ (⟨2, 5⟩ : Position) := by
  decide

/-- C6 (amended): whenever movePiece succeeds, the target cell now holds
the moving piece (any previous occupant having been deleted), the piece's
previous cell is cleared, every other cell is untouched — but the moving
piece's cached coordinate is not updated by the call: the stored piece
value still carries its pre-move position (it is re-synchronised only by a
later render pass). -/
theorem claim_C6_success_postcondition (b : Board) (p : Piece) (t : Position)
    (h : (BoardManager.movePiece b p t).1 = true) :
    (BoardManager.movePiece b p t).2 t.x t.y = some p ∧
    (BoardManager.movePiece b p t).2 p.position.x p.position.y = none ∧
    (∀ x y, ¬(x = t.x ∧ y = t.y) → ¬(x = p.position.x ∧ y = p.position.y) →
      (BoardManager.movePiece b p t).2 x y = b x y) := by
  obtain ⟨-, h1, h2, h3⟩ := movePiece_success_state h
  exact ⟨h1, h2, h3⟩

/-- C6 witness: the knight capture of the black pawn on (2, 5). -/
theorem claim_C6_witness :
    (BoardManager.movePiece knightBoard wknight ⟨2, 5⟩).1 = true ∧
    (BoardManager.movePiece knightBoard wknight ⟨2, 5⟩).2 2 5 = some wknight := by
  refine ⟨by decide, ?_⟩
  exact (claim_C6_success_postcondition knightBoard wknight ⟨2, 5⟩ (by decide)).1

/-- C7: with a piece selected, processing Activate always returns the
controller to the deselected state with an empty candidate-move list,
independently of the cursor and of whether the board move succeeded. -/
theorem claim_C7_activate_clears_selection (s : ControllerState) (p : Piece)
    (h : s.selectedPiece = some p) :
    (processActivate s).selectedPiece = none ∧
    (processActivate s).moves = [] := by
  simp [processActivate, h]

/-- C7 witness: the state with the knight selected and the cursor on
(2, 5). -/
theorem claim_C7_witness :
    selectedState.selectedPiece = some wknight ∧
    (processActivate selectedState).selectedPiece = none ∧
    (processActivate selectedState).moves = [] :=
  ⟨rfl, claim_C7_activate_clears_selection selectedState wknight rfl⟩

/-- C8: for knights and for kings the generated move set coincides, as a
set, with the spec-side description: the fixed relative-offset table
applied to the current position, restricted to on-board squares with
same-colour occupants removed. -/
theorem claim_C8_step_moves_eq_spec (p : Piece) (b : Board) (q : Position) :
    (p.kind = PieceKind.knight →
      (q ∈ getPotentialMoves p b ↔ q ∈ specStepMoves p b knightMoves)) ∧
    (p.kind = PieceKind.king →
      (q ∈ getPotentialMoves p b ↔ q ∈ specStepMoves p b kingMoves)) := by
  constructor
  · intro hk
    rw [mem_specStepMoves]
    simp only [getPotentialMoves, hk]
    exact mem_knight_moves
  · intro hk
    rw [mem_specStepMoves]
    simp only [getPotentialMoves, hk]
    exact mem_king_moves

/-- C8 witness: the knight at (1, 7) and the capture square (2, 5). -/
theorem claim_C8_witness :
    wknight.kind = PieceKind.knight ∧
    ((⟨2, 5⟩ : Position) ∈ getPotentialMoves wknight knightBoard ↔
      (⟨2, 5⟩ : Position) ∈ specStepMoves wknight knightBoard knightMoves) :=
  ⟨rfl, (claim_C8_step_moves_eq_spec wknight knightBoard ⟨2, 5⟩).1 rfl⟩

/-- C9: no piece's generated move set ever contains its own cached
position, so a successful movePiece always relocates the piece to a
different cell, and the old-cell clearing write never empties the cell the
piece just moved into: after success the target cell holds the piece. -/
theorem claim_C9_never_self_move (p : Piece) (b : Board) (t : Position) :
    p.position ∉ getPotentialMoves p b ∧
    ((BoardManager.movePiece b p t).1 = true →
      t ≠ p.position ∧
      (BoardManager.movePiece b p t).2 t.x t.y = some p) := by
  refine ⟨pos_not_mem_moves p b, fun h => ?_⟩
  obtain ⟨h1, h2, -, -⟩ := movePiece_success_state h
  exact ⟨h1, h2⟩

/-- C9 witness: the successful knight capture on (2, 5). -/
theorem claim_C9_witness :
    (BoardManager.movePiece knightBoard wknight ⟨2, 5⟩).1 = true ∧
    wknight.position ∉ getPotentialMoves wknight knightBoard ∧
    ((⟨2, 5⟩ : Position) ≠ wknight.position ∧
      (BoardManager.movePiece knightBoard wknight ⟨2, 5⟩).2 2 5 = some wknight) := by
  refine ⟨by decide,
    (claim_C9_never_self_move wknight knightBoard ⟨2, 5⟩).1, ?_⟩
  exact (claim_C9_never_self_move wknight knightBoard ⟨2, 5⟩).2 (by decide)

/-- C10: after a render pass, every occupied cell of the 8x8 grid holds a
piece whose cached position equals that cell's coordinates: the
cached-coordinate/grid synchronisation invariant is established by
renderBoard (movePiece itself leaves the cached coordinate stale). -/
theorem claim_C10_render_syncs_positions (b : Board) (x y : Int) (t : Piece)
    (hib : inBounds x y = true)
    (h : BoardManager.renderBoard b x y = some t) :
    t.position = ⟨x, y⟩ := by
  simp only [BoardManager.renderBoard, hib, if_true] at h
  rcases hb : b x y with _ | piece
  · rw [hb] at h
    cases h
  · rw [hb] at h
    simp only [Option.some.injEq] at h
    rw [← h]

/-- C10 witness: a rook stored at cell (0, 0) with a stale cached position
(3, 3) is re-homed by the render pass. -/
theorem claim_C10_witness :
    inBounds 0 0 = true ∧
    BoardManager.renderBoard deSyncedBoard 0 0 =
      some (⟨true, .rook, ⟨0, 0⟩, false⟩ : Piece) ∧
    (⟨true, .rook, ⟨0, 0⟩, false⟩ : Piece).position = (⟨0, 0⟩ : Position) := by
  refine ⟨by decide, by decide, ?_⟩
  exact claim_C10_render_syncs_positions deSyncedBoard 0 0 _ (by decide) (by decide)
